import Mathlib

/-!
# FeeWhisperer scan engine: a shallow embedding

This file embeds the core of the FeeWhisperer repository in Lean 4:
the `EventScanner` service (`scanForNewEvents`, `scanBatch`, `storeEvents`,
`initializeScanProgress`, `retryWithBackoff`, `start`), the
`ScanProgress` model (`updateProgress`) and the `FeeEvent` model with its
unique `(transactionHash, logIndex)` index, together with the
`FeeCollectorService.validateContract` check.

Effectful calls to the chain RPC and to the database are modelled through
an explicit environment (`ScanEnv`): the environment decides, per block
range and per attempt index, what the raw-event fetch returns (or whether
it throws), how raw entries decode, and whether the bulk insert throws a
non-duplicate storage error.  Machine numbers from the source (JavaScript
`number`) are modelled as `Int` for block numbers and counters and as
`Nat` for lengths, times and configuration sizes; none of the scanner's
arithmetic can overflow a JS number in the modelled ranges.

`progress.save()` is modelled as always succeeding: the claims under
study only exercise failures of the remote fetch and of the event-store
insert, and a save failure inside the batch `try` is retried through the
same `retryWithBackoff` path that the model does cover.  A failed
event-store insert is modelled as leaving the store unchanged; partial
inserts left behind by a failed `ordered:false` bulk write are harmless
for every property below because insertion is idempotent by key.
-/

namespace FeeWhisperer

/-! ## Configuration (src/types: `ChainConfig`, `ScannerConfig`) -/

structure ChainConfig where
  name : String
  chainId : Nat
  rpcUrl : String
  contractAddress : String
  startBlock : Int
deriving DecidableEq, Repr

structure ScannerConfig where
  batchSize : Nat
  intervalMs : Nat
  maxRetries : Nat
  retryDelayMs : Nat
deriving DecidableEq, Repr

/-! ## Events (src/types `ParsedFeeCollectedEvent`, src/models `FeeEvent`) -/

/-- A raw log entry as returned by `loadFeeCollectorEvents`; its content is
only ever interpreted by the environment's decode function, so it is an
abstract tag here. -/
structure RawEvent where
  payload : Nat
deriving DecidableEq, Repr

structure ParsedFeeCollectedEvent where
  token : String
  integrator : String
  integratorFee : Nat
  lifiFee : Nat
  blockNumber : Int
  transactionHash : String
  logIndex : Nat
  timestamp : Nat
deriving DecidableEq, Repr

/-- A stored `FeeEvent` record (src/models/FeeEvent).  The Mongo-generated
`_id`, `createdAt` and `updatedAt` bookkeeping fields are not part of any
claim and are omitted. -/
structure FeeEvent where
  token : String
  integrator : String
  integratorFee : String
  lifiFee : String
  blockNumber : Int
  transactionHash : String
  logIndex : Nat
  timestamp : Nat
  chain : String
deriving DecidableEq, Repr

/-- The record built by `EventScanner.storeEvents` from one parsed event
(`BlockchainUtils.bigNumberToString` is decimal printing). -/
def toFeeEvent (chain : String) (e : ParsedFeeCollectedEvent) : FeeEvent :=
  { token := e.token
    integrator := e.integrator
    integratorFee := toString e.integratorFee
    lifiFee := toString e.lifiFee
    blockNumber := e.blockNumber
    transactionHash := e.transactionHash
    logIndex := e.logIndex
    timestamp := e.timestamp
    chain := chain }

/-- The natural key of the unique index
`@index({ transactionHash: 1, logIndex: 1 }, { unique: true })`. -/
def natKey (e : FeeEvent) : String × Nat := (e.transactionHash, e.logIndex)

/-- Whether some stored record already carries the given natural key. -/
def hasKey (store : List FeeEvent) (k : String × Nat) : Bool :=
  store.any (fun e => natKey e = k)

/-- Modelled from the spec: the event store itself is MongoDB, which is not
part of this repository; §4.3/§6 of the spec require the storage layer to
enforce the unique `(transactionHash, logIndex)` constraint (declared in
src/models/FeeEvent) and `insertMany` with `ordered:false` to insert every
non-colliding record while dropping colliding ones.  Records are processed
in order; a record whose key is already present (in the store or earlier in
the same bulk call) is skipped, everything else is appended. -/
def insertIgnoringDups (store : List FeeEvent) : List FeeEvent → List FeeEvent
  | [] => store
  | e :: rest =>
      if hasKey store (natKey e) then insertIgnoringDups store rest
      else insertIgnoringDups (store ++ [e]) rest

/-- `EventScanner.storeEvents`, successful path: empty input returns
immediately; otherwise the mapped records go through the duplicate-ignoring
bulk insert (a duplicate-key error, Mongo code 11000, is caught and
ignored, so duplicates never surface as an error). -/
def storeEvents (chain : String) (store : List FeeEvent)
    (events : List ParsedFeeCollectedEvent) : List FeeEvent :=
  if events.length = 0 then store
  else insertIgnoringDups store (events.map (toFeeEvent chain))

/-! ## Scan progress (src/models/ScanProgress) -/

structure ScanProgress where
  chain : String
  lastScannedBlock : Int
  lastScanTime : Nat
  totalEventsFound : Int
  totalBlocksScanned : Int
  createdAt : Nat
  updatedAt : Nat
deriving DecidableEq, Repr

/-- `ScanProgress.updateProgress`: `lastScannedBlock` moves by `Math.max`,
counters accumulate, timestamps are refreshed to the current time. -/
def ScanProgress.updateProgress (p : ScanProgress) (lastBlock : Int)
    (eventsCount blocksScanned : Int) (now : Nat) : ScanProgress :=
  { p with
    lastScannedBlock := max p.lastScannedBlock lastBlock
    lastScanTime := now
    totalEventsFound := p.totalEventsFound + eventsCount
    totalBlocksScanned := p.totalBlocksScanned + blocksScanned
    updatedAt := now }

/-- `EventScanner.initializeScanProgress`: create the record seeded at
`startBlock - 1` only when none exists for the chain. -/
def initializeScanProgress (chainCfg : ChainConfig)
    (progressDB : Option ScanProgress) (now : Nat) : Option ScanProgress :=
  match progressDB with
  | some existing => some existing
  | none =>
      some { chain := chainCfg.name.toLower
             lastScannedBlock := chainCfg.startBlock - 1
             lastScanTime := now
             totalEventsFound := 0
             totalBlocksScanned := 0
             createdAt := now
             updatedAt := now }

/-! ## The scan environment and observable actions -/

inductive ScanError where
  | heightFail
  | loadFail (msg : String)
  | storeFail
  | progressMissing
deriving DecidableEq, Repr

instance {ε α : Type} [DecidableEq ε] [DecidableEq α] :
    DecidableEq (Except ε α) := fun a b =>
  match a, b with
  | .ok x, .ok y => decidable_of_iff (x = y) (by simp)
  | .ok _, .error _ => isFalse (by simp)
  | .error _, .ok _ => isFalse (by simp)
  | .error e, .error f => decidable_of_iff (e = f) (by simp)

/-- The remote chain and the failure schedule of the database, as seen by
one `scanForNewEvents` cycle.  `load f t k` is the result of the `k`-th
`loadFeeCollectorEvents(f, t)` call for the range `[f, t]` (`k = 0` is the
initial attempt inside the while loop, `k = 1, …, maxRetries` are the
`retryWithBackoff` attempts); `decode` is `parseFeeCollectorEvents`, which
never throws (malformed entries are skipped inside it); `storeFails f t k`
says whether the bulk insert of that attempt throws a non-duplicate
storage error. -/
structure ScanEnv where
  height : Except ScanError Int
  load : Int → Int → Nat → Except ScanError (List RawEvent)
  decode : List RawEvent → List ParsedFeeCollectedEvent
  storeFails : Int → Int → Nat → Bool

/-- One observable action of a scan cycle, in the order performed: a raw
event fetch for a range, a bulk insert of mapped records, a
`progress.save()`, or a timed delay (politeness or backoff). -/
inductive Action where
  | fetch (fromB toB : Int)
  | storeA (records : List FeeEvent)
  | saveA (p : ScanProgress)
  | delayA (ms : Nat)
deriving DecidableEq, Repr

/-- The block ranges carried by the fetch actions of a trace. -/
def fetches (trace : List Action) : List (Int × Int) :=
  trace.filterMap fun a =>
    match a with
    | .fetch f t => some (f, t)
    | _ => none

/-- Persistent scanner-visible state: the re-entrancy flag, the persisted
progress record for this chain (if any) and the event collection. -/
structure ScannerState where
  isScanning : Bool
  progressDB : Option ScanProgress
  eventsDB : List FeeEvent
deriving DecidableEq, Repr

/-! ## `EventScanner.scanBatch` -/

/-- `EventScanner.scanBatch(fromBlock, toBlock)` at attempt `k`: load raw
events (a throw aborts the batch), return count 0 on an empty range,
otherwise decode and store, returning the new store and
`parsedEvents.length`.  The trace records the fetch and, when the bulk
insert actually runs and succeeds, the insert. -/
def scanBatch (chain : String) (env : ScanEnv) (store : List FeeEvent)
    (fromB toB : Int) (k : Nat) :
    List Action × Except ScanError (List FeeEvent × Int) :=
  match env.load fromB toB k with
  | .error e => ([.fetch fromB toB], .error e)
  | .ok raws =>
      if raws.length = 0 then ([.fetch fromB toB], .ok (store, 0))
      else
        let parsed := env.decode raws
        if parsed.length ≠ 0 ∧ env.storeFails fromB toB k then
          ([.fetch fromB toB], .error .storeFail)
        else
          ([.fetch fromB toB] ++
             (if parsed.length = 0 then []
              else [.storeA (parsed.map (toFeeEvent chain))]),
           .ok (storeEvents chain store parsed, (parsed.length : Int)))

/-! ## `EventScanner.retryWithBackoff` around a failed batch -/

/-- Outcome of the retry loop (and of each batch of the scan loop):
the action trace, the event store, the in-memory progress document, the
persisted progress record, the persisted snapshots taken right after each
`progress.save()`, and the result surfaced to the caller. -/
structure RetryResult where
  trace : List Action
  store : List FeeEvent
  progMem : ScanProgress
  progDB : ScanProgress
  snaps : List (List FeeEvent × ScanProgress)
  res : Except ScanError Unit
deriving DecidableEq, Repr

/-- `retryWithBackoff` applied to the operation built in
`scanForNewEvents`' catch block: for `attempt = 1, …, maxRetries`, rerun
`scanBatch(fromBlock, toBlock)`; on success, update and save progress and
return; on failure at the last attempt, rethrow; otherwise wait
`retryDelayMs * 2^(attempt-1)` and try again.  When `maxRetries <
attempt` at entry (only possible for `maxRetries = 0`), the `for` loop
body never runs and the call returns normally with no effect. -/
def retryLoop (cfg : ScannerConfig) (chain : String) (env : ScanEnv)
    (fromB toB : Int) (now : Nat) (store : List FeeEvent)
    (pm progDB : ScanProgress) (attempt : Nat) : RetryResult :=
  if _h : cfg.maxRetries < attempt then
    ⟨[], store, pm, progDB, [], .ok ()⟩
  else
    match scanBatch chain env store fromB toB attempt with
    | (tr, .ok (store', cnt)) =>
        let pm' := pm.updateProgress toB cnt (toB - fromB + 1) now
        ⟨tr ++ [.saveA pm'], store', pm', pm', [(store', pm')], .ok ()⟩
    | (tr, .error e) =>
        if h2 : attempt = cfg.maxRetries then
          ⟨tr, store, pm, progDB, [], .error e⟩
        else
          let d := cfg.retryDelayMs * 2 ^ (attempt - 1)
          let rest := retryLoop cfg chain env fromB toB now store pm progDB
            (attempt + 1)
          ⟨tr ++ [.delayA d] ++ rest.trace, rest.store, rest.progMem,
            rest.progDB, rest.snaps, rest.res⟩
termination_by cfg.maxRetries + 1 - attempt
decreasing_by omega

/-! ## The while loop of `scanForNewEvents` -/

/-- The batch loop of `scanForNewEvents`, from `fromB` up to `current`:
each iteration takes `toBlock = min(fromBlock + batchSize - 1,
currentBlock)`, runs `scanBatch`; on success updates and saves progress,
then sleeps 500 ms before the next batch (if any); on failure runs the
retry loop on the same range, propagating its error, and otherwise
continues at `toBlock + 1` without the politeness delay.  `hbs` reflects
that the source loop only terminates for a positive batch size (the
repository configures 10000). -/
def scanLoop (cfg : ScannerConfig) (hbs : 0 < cfg.batchSize)
    (chain : String) (env : ScanEnv) (current : Int) (now : Nat)
    (fromB : Int) (store : List FeeEvent) (pm progDB : ScanProgress) :
    RetryResult :=
  if _h : fromB ≤ current then
    let toB : Int := min (fromB + (cfg.batchSize : Int) - 1) current
    match scanBatch chain env store fromB toB 0 with
    | (tr, .ok (store', cnt)) =>
        let pm' := pm.updateProgress toB cnt (toB - fromB + 1) now
        let polite : List Action :=
          if toB + 1 ≤ current then [.delayA 500] else []
        let rest := scanLoop cfg hbs chain env current now (toB + 1) store'
          pm' pm'
        ⟨tr ++ [.saveA pm'] ++ polite ++ rest.trace, rest.store,
          rest.progMem, rest.progDB, (store', pm') :: rest.snaps, rest.res⟩
    | (tr, .error _) =>
        let r := retryLoop cfg chain env fromB toB now store pm progDB 1
        match r.res with
        | .error e => ⟨tr ++ r.trace, r.store, r.progMem, r.progDB,
            r.snaps, .error e⟩
        | .ok _ =>
            let rest := scanLoop cfg hbs chain env current now (toB + 1)
              r.store r.progMem r.progDB
            ⟨tr ++ r.trace ++ rest.trace, rest.store, rest.progMem,
              rest.progDB, r.snaps ++ rest.snaps, rest.res⟩
  else ⟨[], store, pm, progDB, [], .ok ()⟩
termination_by (current + 1 - fromB).toNat
decreasing_by all_goals omega

/-! ## `EventScanner.scanForNewEvents` -/

structure ScanOutcome where
  state : ScannerState
  trace : List Action
  snaps : List (List FeeEvent × ScanProgress)
  res : Except ScanError Unit
deriving DecidableEq, Repr

/-- `EventScanner.scanForNewEvents`: if a scan is already in flight,
return immediately with no action and no state change; otherwise set the
guard, read progress (throwing if the record is missing) and the current
height, return when already up to date, and otherwise run the batch loop.
Every exit path clears `isScanning` (the source's `finally`). -/
def scanForNewEvents (cfg : ScannerConfig) (hbs : 0 < cfg.batchSize)
    (chain : String) (env : ScanEnv) (st : ScannerState) (now : Nat) :
    ScanOutcome :=
  if st.isScanning then ⟨st, [], [], .ok ()⟩
  else
    match st.progressDB with
    | none => ⟨{ st with isScanning := false }, [], [], .error .progressMissing⟩
    | some progress =>
        match env.height with
        | .error e => ⟨{ st with isScanning := false }, [], [], .error e⟩
        | .ok current =>
            if current ≤ progress.lastScannedBlock then
              ⟨{ st with isScanning := false }, [], [], .ok ()⟩
            else
              let r := scanLoop cfg hbs chain env current now
                (progress.lastScannedBlock + 1) st.eventsDB progress progress
              ⟨{ isScanning := false, progressDB := some r.progDB,
                 eventsDB := r.store }, r.trace, r.snaps, r.res⟩

/-- A sequence of scan cycles: each element supplies the environment and
wall clock of one `scanForNewEvents` invocation. -/
def scanMany (cfg : ScannerConfig) (hbs : 0 < cfg.batchSize)
    (chain : String) (runs : List (ScanEnv × Nat)) (st : ScannerState) :
    ScannerState :=
  runs.foldl (fun s run => (scanForNewEvents cfg hbs chain run.1 s run.2).state) st

/-! ## `FeeCollectorService.validateContract` and `EventScanner.start` -/

/-- The init-time environment: the result of `provider.getCode(address)`. -/
structure InitEnv where
  getCode : Except String String

/-- `validateContract`: true iff `getCode` succeeds and the returned code
is not the empty `'0x'`; any provider error is caught and turns into
`false`. -/
def validateContract (ienv : InitEnv) : Bool :=
  match ienv.getCode with
  | .error _ => false
  | .ok code => code ≠ "0x"

structure StartOutcome where
  state : ScannerState
  intervalScheduled : Bool
  trace : List Action
  res : Except ScanError Unit
deriving Repr

/-- `EventScanner.start`: validate the contract — on failure, log and
`return` (no throw); then initialize progress, run the duplicated pair of
initial scans (each with its own swallowed `.catch`) and schedule the
periodic interval.  The surrounding `try/catch` logs and swallows any
remaining error, so `start` never rejects. -/
def start (cfg : ScannerConfig) (hbs : 0 < cfg.batchSize)
    (chainCfg : ChainConfig) (ienv : InitEnv) (env1 env2 : ScanEnv)
    (st : ScannerState) (now : Nat) : StartOutcome :=
  if validateContract ienv = false then
    ⟨st, false, [], .ok ()⟩
  else
    let chain := chainCfg.name.toLower
    let st0 : ScannerState :=
      { st with progressDB := initializeScanProgress chainCfg st.progressDB now }
    let r1 := scanForNewEvents cfg hbs chain env1 st0 now
    let r2 := scanForNewEvents cfg hbs chain env2 r1.state now
    ⟨r2.state, true, r1.trace ++ r2.trace, .ok ()⟩

/-! ## The batch partition, as computed by the loop -/

/-- The list of `(fromBlock, toBlock)` ranges the while loop walks through
from `fromB` to `current`. -/
def batchRanges (bs : Nat) (hbs : 0 < bs) (fromB current : Int) :
    List (Int × Int) :=
  if h : fromB ≤ current then
    let toB : Int := min (fromB + (bs : Int) - 1) current
    (fromB, toB) :: batchRanges bs hbs (toB + 1) current
  else []
termination_by (current + 1 - fromB).toNat
decreasing_by omega

/-- The ranges `rs` tile `[lo, …]` consecutively: each range starts where
the previous one ended plus one and is nonempty. -/
def consecutiveFrom (lo : Int) : List (Int × Int) → Prop
  | [] => True
  | (f, t) :: rest => f = lo ∧ f ≤ t ∧ consecutiveFrom (t + 1) rest

/-- The end of the last range in the list (or `d` for the empty list). -/
def lastEnd (d : Int) : List (Int × Int) → Int
  | [] => d
  | [(_, t)] => t
  | _ :: rest => lastEnd d rest

/-- The expected action schedule of `retryWithBackoff` when every attempt
fails, starting at `attempt` with `n` attempts remaining: a fetch per
attempt, with the backoff delay `base * 2^(attempt-1)` between consecutive
attempts and none after the last. -/
def retrySchedule (base : Nat) (f t : Int) : Nat → Nat → List Action
  | _, 0 => []
  | _, 1 => [.fetch f t]
  | attempt, n + 2 =>
      .fetch f t :: .delayA (base * 2 ^ (attempt - 1)) ::
        retrySchedule base f t (attempt + 1) (n + 1)

/-- The content of the chain is fixed: any successful raw-event fetch for a
range decodes to the same event list `ev f t` (and an empty fetch means the
range has no events). -/
def ContentOk (env : ScanEnv) (ev : Int → Int → List ParsedFeeCollectedEvent) :
    Prop :=
  ∀ f t k rs, env.load f t k = .ok rs →
    (if rs.length = 0 then ev f t = [] else env.decode rs = ev f t)

/-- The remote source and the store never fail an initial (non-retry)
attempt. -/
def NoFail (env : ScanEnv) : Prop :=
  (∀ f t, ∃ rs, env.load f t 0 = .ok rs) ∧
    ∀ f t, env.storeFails f t 0 = false

/-! ## Concrete fixtures (the repository's own configuration values) -/

def cfgW : ScannerConfig :=
  { batchSize := 10000, intervalMs := 300000, maxRetries := 3,
    retryDelayMs := 1000 }

def chainW : ChainConfig :=
  { name := "Polygon", chainId := 137, rpcUrl := "https://polygon-rpc.com",
    contractAddress := "0xbD6C7B0d2f68c2b7805d88388319cfB6EcB50eA9",
    startBlock := 70000000 }

def p0 : ScanProgress :=
  { chain := "polygon", lastScannedBlock := 69999999, lastScanTime := 0,
    totalEventsFound := 0, totalBlocksScanned := 0, createdAt := 0,
    updatedAt := 0 }

/-- A remote source with no events in any range and no failures. -/
def envEmpty : ScanEnv :=
  { height := .ok 70000001, load := fun _ _ _ => .ok [],
    decode := fun _ => [], storeFails := fun _ _ _ => false }

/-- A remote source whose raw-event fetch always throws. -/
def envDown : ScanEnv :=
  { height := .ok 70000001,
    load := fun _ _ _ => .error (.loadFail ("ECONNREFUSED")),
    decode := fun _ => [], storeFails := fun _ _ _ => false }

def sampleParsed : ParsedFeeCollectedEvent :=
  { token := "0x2791bca1f2de4661ed88a30c99a7a9449aa84174",
    integrator := "0x1234567890123456789012345678901234567890",
    integratorFee := 1000000, lifiFee := 500000, blockNumber := 70000001,
    transactionHash := "0xabc123", logIndex := 0, timestamp := 0 }

def sampleStored : FeeEvent := toFeeEvent ("polygon") sampleParsed

/-- A remote source that returns one raw entry decoding to `sampleParsed`
for every range. -/
def envDup : ScanEnv :=
  { height := .ok 70000001, load := fun _ _ _ => .ok [⟨0⟩],
    decode := fun _ => [sampleParsed], storeFails := fun _ _ _ => false }

def stIdle : ScannerState :=
  { isScanning := false, progressDB := some p0, eventsDB := [] }

def stBusy : ScannerState :=
  { isScanning := true, progressDB := some p0, eventsDB := [] }

def ienvBad : InitEnv := { getCode := .error ("connection refused") }

/-! ## Lemmas about the deduplicating store -/

lemma hasKey_iff {store : List FeeEvent} {k : String × Nat} :
    hasKey store k = true ↔ ∃ e ∈ store, natKey e = k := by
  simp [hasKey]

lemma mem_insertIgnoringDups_of_mem {store : List FeeEvent}
    (evs : List FeeEvent) {e : FeeEvent} (he : e ∈ store) :
    e ∈ insertIgnoringDups store evs := by
  induction evs generalizing store with
  | nil => simpa [insertIgnoringDups] using he
  | cons x rest ih =>
      by_cases hx : hasKey store (natKey x) = true
      · simpa [insertIgnoringDups, hx] using ih he
      · simp only [insertIgnoringDups, hx]
        rw [if_neg (by simp [hx])]
        exact ih (by simp [he])

lemma hasKey_insertIgnoringDups_mono {store : List FeeEvent}
    (evs : List FeeEvent) {k : String × Nat} (hk : hasKey store k = true) :
    hasKey (insertIgnoringDups store evs) k = true := by
  rcases hasKey_iff.mp hk with ⟨e, he, hke⟩
  exact hasKey_iff.mpr ⟨e, mem_insertIgnoringDups_of_mem evs he, hke⟩

lemma hasKey_insertIgnoringDups_input {store : List FeeEvent}
    {evs : List FeeEvent} {e : FeeEvent} (he : e ∈ evs) :
    hasKey (insertIgnoringDups store evs) (natKey e) = true := by
  induction evs generalizing store with
  | nil => cases he
  | cons x rest ih =>
      rcases List.mem_cons.mp he with rfl | hmem
      · by_cases hx : hasKey store (natKey e) = true
        · simp only [insertIgnoringDups, hx, if_pos]
          exact hasKey_insertIgnoringDups_mono rest hx
        · simp only [insertIgnoringDups, hx]
          rw [if_neg (by simp [hx])]
          exact hasKey_insertIgnoringDups_mono rest
            (hasKey_iff.mpr ⟨e, by simp, rfl⟩)
      · by_cases hx : hasKey store (natKey x) = true
        · simpa [insertIgnoringDups, hx] using ih hmem
        · simp only [insertIgnoringDups, hx]
          rw [if_neg (by simp [hx])]
          exact ih hmem

lemma keyNodup_insertIgnoringDups {store : List FeeEvent}
    (evs : List FeeEvent) (h : (store.map natKey).Nodup) :
    ((insertIgnoringDups store evs).map natKey).Nodup := by
  induction evs generalizing store with
  | nil => simpa [insertIgnoringDups] using h
  | cons x rest ih =>
      by_cases hx : hasKey store (natKey x) = true
      · simpa [insertIgnoringDups, hx] using ih h
      · simp only [insertIgnoringDups, hx]
        rw [if_neg (by simp [hx])]
        refine ih ?_
        rw [List.map_append, List.map_singleton]
        refine List.Nodup.append h (List.nodup_singleton _) ?_
        intro k hk1 hk2
        simp only [List.mem_map] at hk1
        rcases hk1 with ⟨e, he, rfl⟩
        simp only [List.mem_singleton] at hk2
        exact hx (hasKey_iff.mpr ⟨e, he, hk2⟩)

lemma insertIgnoringDups_dup_noop {store : List FeeEvent} {e : FeeEvent}
    (h : hasKey store (natKey e) = true) :
    insertIgnoringDups store [e] = store := by
  simp [insertIgnoringDups, h]

lemma mem_insertIgnoringDups_of_fresh {store : List FeeEvent}
    {evs : List FeeEvent} {e : FeeEvent} (he : e ∈ evs)
    (hnodup : (evs.map natKey).Nodup)
    (hfresh : hasKey store (natKey e) = false) :
    e ∈ insertIgnoringDups store evs := by
  induction evs generalizing store with
  | nil => cases he
  | cons x rest ih =>
      rcases List.mem_cons.mp he with rfl | hmem
      · simp only [insertIgnoringDups, hfresh]
        rw [if_neg (by simp [hfresh])]
        exact mem_insertIgnoringDups_of_mem rest (by simp)
      · have hrest : (rest.map natKey).Nodup := by
          simpa using hnodup.of_cons
        by_cases hx : hasKey store (natKey x) = true
        · simp only [insertIgnoringDups, hx, if_pos]
          exact ih hmem hrest hfresh
        · simp only [insertIgnoringDups, hx]
          rw [if_neg (by simp [hx])]
          refine ih hmem hrest ?_
          simp only [hasKey, List.any_append, Bool.or_eq_false_iff] at hfresh ⊢
          refine ⟨hfresh, ?_⟩
          simp only [List.any_cons, List.any_nil, Bool.or_false,
            decide_eq_false_iff_not]
          intro hkey
          have hmm : natKey e ∈ rest.map natKey := List.mem_map_of_mem natKey hmem
          simp only [List.map_cons, List.nodup_cons] at hnodup
          exact hnodup.1 (by rw [hkey]; exact hmm)

lemma countKey_le_one_of_keyNodup {store : List FeeEvent}
    (h : (store.map natKey).Nodup) (k : String × Nat) :
    (store.filter (fun e => natKey e = k)).length ≤ 1 := by
  induction store with
  | nil => simp
  | cons x rest ih =>
      simp only [List.map_cons, List.nodup_cons] at h
      by_cases hx : natKey x = k
      · have : rest.filter (fun e => natKey e = k) = [] := by
          rw [List.filter_eq_nil_iff]
          intro e he hke
          exact h.1 (by
            rw [hx, ← (by simpa using hke : natKey e = k)]
            exact List.mem_map_of_mem natKey he)
        simp [List.filter_cons, hx, this]
      · simpa [List.filter_cons, hx] using ih h.2

/-! ## Unfolding lemmas for the loops -/

lemma batchRanges_of_le {bs : Nat} (hbs : 0 < bs) {fromB current : Int}
    (h : fromB ≤ current) :
    batchRanges bs hbs fromB current =
      (fromB, min (fromB + (bs : Int) - 1) current) ::
        batchRanges bs hbs (min (fromB + (bs : Int) - 1) current + 1) current := by
  rw [batchRanges]
  simp [h]

lemma batchRanges_of_gt {bs : Nat} (hbs : 0 < bs) {fromB current : Int}
    (h : current < fromB) :
    batchRanges bs hbs fromB current = [] := by
  rw [batchRanges]
  simp [not_le.mpr h]

lemma retryLoop_of_gt {cfg : ScannerConfig} {chain : String} {env : ScanEnv}
    {fromB toB : Int} {now : Nat} {store : List FeeEvent}
    {pm progDB : ScanProgress} {attempt : Nat}
    (h : cfg.maxRetries < attempt) :
    retryLoop cfg chain env fromB toB now store pm progDB attempt =
      ⟨[], store, pm, progDB, [], .ok ()⟩ := by
  rw [retryLoop]
  simp [h]

lemma retryLoop_of_ok {cfg : ScannerConfig} {chain : String} {env : ScanEnv}
    {fromB toB : Int} {now : Nat} {store : List FeeEvent}
    {pm progDB : ScanProgress} {attempt : Nat}
    (h : ¬ cfg.maxRetries < attempt) {tr : List Action}
    {store' : List FeeEvent} {cnt : Int}
    (hb : scanBatch chain env store fromB toB attempt = (tr, .ok (store', cnt))) :
    retryLoop cfg chain env fromB toB now store pm progDB attempt =
      ⟨tr ++ [.saveA (pm.updateProgress toB cnt (toB - fromB + 1) now)],
        store', pm.updateProgress toB cnt (toB - fromB + 1) now,
        pm.updateProgress toB cnt (toB - fromB + 1) now,
        [(store', pm.updateProgress toB cnt (toB - fromB + 1) now)], .ok ()⟩ := by
  rw [retryLoop]
  simp [h, hb]

lemma retryLoop_of_err_last {cfg : ScannerConfig} {chain : String}
    {env : ScanEnv} {fromB toB : Int} {now : Nat} {store : List FeeEvent}
    {pm progDB : ScanProgress} {attempt : Nat}
    (h : ¬ cfg.maxRetries < attempt) {tr : List Action} {e : ScanError}
    (hb : scanBatch chain env store fromB toB attempt = (tr, .error e))
    (hlast : attempt = cfg.maxRetries) :
    retryLoop cfg chain env fromB toB now store pm progDB attempt =
      ⟨tr, store, pm, progDB, [], .error e⟩ := by
  subst hlast
  rw [retryLoop]
  simp [h, hb]

lemma retryLoop_of_err_next {cfg : ScannerConfig} {chain : String}
    {env : ScanEnv} {fromB toB : Int} {now : Nat} {store : List FeeEvent}
    {pm progDB : ScanProgress} {attempt : Nat}
    (h : ¬ cfg.maxRetries < attempt) {tr : List Action} {e : ScanError}
    (hb : scanBatch chain env store fromB toB attempt = (tr, .error e))
    (hnext : attempt ≠ cfg.maxRetries) :
    retryLoop cfg chain env fromB toB now store pm progDB attempt =
      ⟨tr ++ [.delayA (cfg.retryDelayMs * 2 ^ (attempt - 1))] ++
          (retryLoop cfg chain env fromB toB now store pm progDB (attempt + 1)).trace,
        (retryLoop cfg chain env fromB toB now store pm progDB (attempt + 1)).store,
        (retryLoop cfg chain env fromB toB now store pm progDB (attempt + 1)).progMem,
        (retryLoop cfg chain env fromB toB now store pm progDB (attempt + 1)).progDB,
        (retryLoop cfg chain env fromB toB now store pm progDB (attempt + 1)).snaps,
        (retryLoop cfg chain env fromB toB now store pm progDB (attempt + 1)).res⟩ := by
  rw [retryLoop]
  simp [h, hb, hnext]

lemma scanLoop_of_gt {cfg : ScannerConfig} {hbs : 0 < cfg.batchSize}
    {chain : String} {env : ScanEnv} {current : Int} {now : Nat}
    {fromB : Int} {store : List FeeEvent} {pm progDB : ScanProgress}
    (h : current < fromB) :
    scanLoop cfg hbs chain env current now fromB store pm progDB =
      ⟨[], store, pm, progDB, [], .ok ()⟩ := by
  rw [scanLoop]
  simp [not_le.mpr h]

lemma scanLoop_of_ok {cfg : ScannerConfig} {hbs : 0 < cfg.batchSize}
    {chain : String} {env : ScanEnv} {current : Int} {now : Nat}
    {fromB : Int} {store : List FeeEvent} {pm progDB : ScanProgress}
    (h : fromB ≤ current) {tr : List Action} {store' : List FeeEvent}
    {cnt : Int}
    (hb : scanBatch chain env store fromB
        (min (fromB + (cfg.batchSize : Int) - 1) current) 0 =
          (tr, .ok (store', cnt))) :
    scanLoop cfg hbs chain env current now fromB store pm progDB =
      (let toB := min (fromB + (cfg.batchSize : Int) - 1) current
       let pm' := pm.updateProgress toB cnt (toB - fromB + 1) now
       let rest := scanLoop cfg hbs chain env current now (toB + 1) store' pm' pm'
       ⟨tr ++ [.saveA pm'] ++
          (if toB + 1 ≤ current then [.delayA 500] else []) ++ rest.trace,
        rest.store, rest.progMem, rest.progDB, (store', pm') :: rest.snaps,
        rest.res⟩) := by
  rw [scanLoop]
  simp [h, hb]

lemma scanLoop_of_err_err {cfg : ScannerConfig} {hbs : 0 < cfg.batchSize}
    {chain : String} {env : ScanEnv} {current : Int} {now : Nat}
    {fromB : Int} {store : List FeeEvent} {pm progDB : ScanProgress}
    (h : fromB ≤ current) {tr : List Action} {e : ScanError}
    (hb : scanBatch chain env store fromB
        (min (fromB + (cfg.batchSize : Int) - 1) current) 0 = (tr, .error e))
    {e2 : ScanError}
    (hr : (retryLoop cfg chain env fromB
        (min (fromB + (cfg.batchSize : Int) - 1) current) now store pm progDB
          1).res = .error e2) :
    scanLoop cfg hbs chain env current now fromB store pm progDB =
      (let r := retryLoop cfg chain env fromB
         (min (fromB + (cfg.batchSize : Int) - 1) current) now store pm progDB 1
       ⟨tr ++ r.trace, r.store, r.progMem, r.progDB, r.snaps, .error e2⟩) := by
  rw [scanLoop]
  simp [h, hb, hr]

lemma scanLoop_of_err_ok {cfg : ScannerConfig} {hbs : 0 < cfg.batchSize}
    {chain : String} {env : ScanEnv} {current : Int} {now : Nat}
    {fromB : Int} {store : List FeeEvent} {pm progDB : ScanProgress}
    (h : fromB ≤ current) {tr : List Action} {e : ScanError}
    (hb : scanBatch chain env store fromB
        (min (fromB + (cfg.batchSize : Int) - 1) current) 0 = (tr, .error e))
    (hr : (retryLoop cfg chain env fromB
        (min (fromB + (cfg.batchSize : Int) - 1) current) now store pm progDB
          1).res = .ok ()) :
    scanLoop cfg hbs chain env current now fromB store pm progDB =
      (let r := retryLoop cfg chain env fromB
         (min (fromB + (cfg.batchSize : Int) - 1) current) now store pm progDB 1
       let rest := scanLoop cfg hbs chain env current now
         (min (fromB + (cfg.batchSize : Int) - 1) current + 1) r.store
         r.progMem r.progDB
       ⟨tr ++ r.trace ++ rest.trace, rest.store, rest.progMem, rest.progDB,
         r.snaps ++ rest.snaps, rest.res⟩) := by
  rw [scanLoop]
  simp [h, hb, hr]

/-! ## The partition computed by the loop -/

lemma batchRanges_mem {bs : Nat} (hbs : 0 < bs) (fromB current : Int) :
    ∀ ft ∈ batchRanges bs hbs fromB current,
      fromB ≤ ft.1 ∧ ft.1 ≤ ft.2 ∧ ft.2 ≤ current ∧
        ft.2 = min (ft.1 + (bs : Int) - 1) current := by
  induction fromB, current using batchRanges.induct bs hbs with
  | case1 fromB current h toB ih =>
      intro ft hft
      rw [batchRanges_of_le hbs h] at hft
      rcases List.mem_cons.mp hft with rfl | hft
      · refine ⟨le_refl _, ?_, ?_, rfl⟩
        · show fromB ≤ min (fromB + (bs : Int) - 1) current
          omega
        · show min (fromB + (bs : Int) - 1) current ≤ current
          omega
      · have hrec := ih ft hft
        exact ⟨by omega, hrec.2.1, hrec.2.2.1, hrec.2.2.2⟩
  | case2 fromB current h =>
      intro ft hft
      rw [batchRanges_of_gt hbs (not_le.mp h)] at hft
      cases hft

lemma batchRanges_consecutive {bs : Nat} (hbs : 0 < bs)
    (fromB current : Int) :
    consecutiveFrom fromB (batchRanges bs hbs fromB current) := by
  induction fromB, current using batchRanges.induct bs hbs with
  | case1 fromB current h toB ih =>
      rw [batchRanges_of_le hbs h]
      exact ⟨rfl, by omega, ih⟩
  | case2 fromB current h =>
      rw [batchRanges_of_gt hbs (not_le.mp h)]
      trivial

lemma batchRanges_lastEnd {bs : Nat} (hbs : 0 < bs) (fromB current d : Int) :
    fromB ≤ current → lastEnd d (batchRanges bs hbs fromB current) = current := by
  induction fromB, current using batchRanges.induct bs hbs with
  | case1 fromB current h1 toB ih =>
      intro _
      rw [batchRanges_of_le hbs h1]
      by_cases hc : min (fromB + (bs : Int) - 1) current + 1 ≤ current
      · have hrest := ih hc
        rw [batchRanges_of_le hbs hc] at hrest ⊢
        simpa [lastEnd] using hrest
      · have hr : batchRanges bs hbs (min (fromB + (bs : Int) - 1) current + 1)
            current = [] := batchRanges_of_gt hbs (by omega)
        rw [hr]
        simp only [lastEnd]
        omega
  | case2 fromB current h1 =>
      intro h2
      omega

/-! ## Shape lemmas for scanBatch and the retry loop -/

lemma scanBatch_error_trace {chain : String} {env : ScanEnv}
    {store : List FeeEvent} {fromB toB : Int} {k : Nat} {tr : List Action}
    {e : ScanError}
    (hb : scanBatch chain env store fromB toB k = (tr, .error e)) :
    tr = [.fetch fromB toB] := by
  unfold scanBatch at hb
  cases hload : env.load fromB toB k with
  | error e1 =>
      rw [hload] at hb
      dsimp only at hb
      exact (Prod.mk.injEq _ _ _ _ ▸ hb).1.symm ▸ rfl
  | ok raws =>
      rw [hload] at hb
      dsimp only at hb
      by_cases hlen : raws.length = 0
      · rw [if_pos hlen] at hb
        cases hb
      · rw [if_neg hlen] at hb
        by_cases hsf : (env.decode raws).length ≠ 0 ∧
            env.storeFails fromB toB k = true
        · rw [if_pos hsf] at hb
          exact ((Prod.mk.injEq _ _ _ _ ▸ hb).1).symm
        · rw [if_neg hsf] at hb
          cases hb

lemma scanBatch_ok_cases {chain : String} {env : ScanEnv}
    {store : List FeeEvent} {fromB toB : Int} {k : Nat} {tr : List Action}
    {store' : List FeeEvent} {cnt : Int}
    (hb : scanBatch chain env store fromB toB k = (tr, .ok (store', cnt))) :
    ∃ raws, env.load fromB toB k = .ok raws ∧
      ((raws.length = 0 ∧ tr = [.fetch fromB toB] ∧ store' = store ∧ cnt = 0) ∨
       (raws.length ≠ 0 ∧
         store' = storeEvents chain store (env.decode raws) ∧
         cnt = ((env.decode raws).length : Int))) := by
  unfold scanBatch at hb
  cases hload : env.load fromB toB k with
  | error e1 =>
      rw [hload] at hb
      dsimp only at hb
      cases hb
  | ok raws =>
      rw [hload] at hb
      dsimp only at hb
      refine ⟨raws, rfl, ?_⟩
      by_cases hlen : raws.length = 0
      · rw [if_pos hlen] at hb
        have h1 := (Prod.mk.injEq _ _ _ _ ▸ hb).1
        have h2 := (Prod.mk.injEq _ _ _ _ ▸ hb).2
        simp only [Except.ok.injEq, Prod.mk.injEq] at h2
        exact Or.inl ⟨hlen, h1.symm, h2.1.symm, h2.2.symm⟩
      · rw [if_neg hlen] at hb
        by_cases hsf : (env.decode raws).length ≠ 0 ∧
            env.storeFails fromB toB k = true
        · rw [if_pos hsf] at hb
          cases hb
        · rw [if_neg hsf] at hb
          have h2 := (Prod.mk.injEq _ _ _ _ ▸ hb).2
          simp only [Except.ok.injEq, Prod.mk.injEq] at h2
          exact Or.inr ⟨hlen, h2.1.symm, h2.2.symm⟩

/-- A successful batch keeps every already-stored record and ends with the
key of every event of the batch's fixed content present in the store. -/
lemma scanBatch_ok_stored {chain : String} {env : ScanEnv}
    {ev : Int → Int → List ParsedFeeCollectedEvent} (hdet : ContentOk env ev)
    {store : List FeeEvent} {fromB toB : Int} {k : Nat} {tr : List Action}
    {store' : List FeeEvent} {cnt : Int}
    (hb : scanBatch chain env store fromB toB k = (tr, .ok (store', cnt))) :
    (∀ e ∈ store, e ∈ store') ∧
    (∀ pe ∈ ev fromB toB, hasKey store' (natKey (toFeeEvent chain pe)) = true) := by
  rcases scanBatch_ok_cases hb with ⟨raws, hload, hcase⟩
  have hcontent := hdet fromB toB k raws hload
  rcases hcase with ⟨hlen, _, hst, _⟩ | ⟨hlen, hst, _⟩
  · rw [if_pos hlen] at hcontent
    subst hst
    exact ⟨fun e he => he, fun pe hpe => by rw [hcontent] at hpe; cases hpe⟩
  · rw [if_neg hlen] at hcontent
    subst hst
    unfold storeEvents
    by_cases hplen : (env.decode raws).length = 0
    · rw [if_pos hplen]
      refine ⟨fun e he => he, fun pe hpe => ?_⟩
      rw [hcontent] at hplen
      rw [List.length_eq_zero] at hplen
      rw [hplen] at hpe
      cases hpe
    · rw [if_neg hplen]
      constructor
      · exact fun e he => mem_insertIgnoringDups_of_mem _ he
      · intro pe hpe
        rw [← hcontent] at hpe
        exact hasKey_insertIgnoringDups_input
          (List.mem_map_of_mem (toFeeEvent chain) hpe)

lemma retryLoop_error_shape {cfg : ScannerConfig} {chain : String}
    {env : ScanEnv} {fromB toB : Int} {now : Nat} {store : List FeeEvent}
    {pm progDB : ScanProgress} :
    ∀ attempt {e : ScanError},
      (retryLoop cfg chain env fromB toB now store pm progDB attempt).res =
        .error e →
      (retryLoop cfg chain env fromB toB now store pm progDB attempt).store =
          store ∧
        (retryLoop cfg chain env fromB toB now store pm progDB attempt).progMem
            = pm ∧
        (retryLoop cfg chain env fromB toB now store pm progDB attempt).progDB
            = progDB ∧
        (retryLoop cfg chain env fromB toB now store pm progDB attempt).snaps
            = [] := by
  intro attempt
  induction attempt using retryLoop.induct cfg chain env fromB toB now store
      pm progDB with
  | case1 a hgt =>
      intro e hres
      rw [retryLoop_of_gt hgt] at hres
      cases hres
  | case2 a hgt tr store' cnt hb =>
      intro e hres
      rw [retryLoop_of_ok (by omega) hb] at hres
      cases hres
  | case3 tr e hgt hb =>
      intro e2 hres
      rw [retryLoop_of_err_last (by omega) hb rfl]
      exact ⟨rfl, rfl, rfl, rfl⟩
  | case4 a hgt tr e hb hne ih =>
      intro e2 hres
      rw [retryLoop_of_err_next (by omega) hb hne] at hres ⊢
      exact ih hres

lemma retryLoop_ok_shape {cfg : ScannerConfig} {chain : String}
    {env : ScanEnv} {fromB toB : Int} {now : Nat} {store : List FeeEvent}
    {pm progDB : ScanProgress} :
    ∀ attempt, attempt ≤ cfg.maxRetries →
      (retryLoop cfg chain env fromB toB now store pm progDB attempt).res =
        .ok () →
      ∃ k tr store' cnt, attempt ≤ k ∧ k ≤ cfg.maxRetries ∧
        scanBatch chain env store fromB toB k = (tr, .ok (store', cnt)) ∧
        (retryLoop cfg chain env fromB toB now store pm progDB attempt).store =
            store' ∧
        (retryLoop cfg chain env fromB toB now store pm progDB attempt).progMem
            = pm.updateProgress toB cnt (toB - fromB + 1) now ∧
        (retryLoop cfg chain env fromB toB now store pm progDB attempt).progDB
            = pm.updateProgress toB cnt (toB - fromB + 1) now ∧
        (retryLoop cfg chain env fromB toB now store pm progDB attempt).snaps
            = [(store', pm.updateProgress toB cnt (toB - fromB + 1) now)] := by
  intro attempt
  induction attempt using retryLoop.induct cfg chain env fromB toB now store
      pm progDB with
  | case1 a hgt =>
      intro hle
      omega
  | case2 a hgt tr store' cnt hb =>
      intro hle hres
      refine ⟨a, tr, store', cnt, le_refl a, hle, hb, ?_⟩
      rw [retryLoop_of_ok (by omega) hb]
      exact ⟨rfl, rfl, rfl, rfl⟩
  | case3 tr e hgt hb =>
      intro hle hres
      rw [retryLoop_of_err_last (by omega) hb rfl] at hres
      cases hres
  | case4 a hgt tr e hb hne ih =>
      intro hle hres
      rw [retryLoop_of_err_next (by omega) hb hne] at hres
      rcases ih (by omega) hres with
        ⟨k, tr', store', cnt, hk1, hk2, hbk, hrest⟩
      refine ⟨k, tr', store', cnt, by omega, hk2, hbk, ?_⟩
      rw [retryLoop_of_err_next (by omega) hb hne]
      exact hrest

lemma retryLoop_allFail {cfg : ScannerConfig} {chain : String}
    {env : ScanEnv} {fromB toB : Int} {now : Nat} {store : List FeeEvent}
    {pm progDB : ScanProgress}
    (hfail : ∀ k, 1 ≤ k → k ≤ cfg.maxRetries →
      ∃ e, (scanBatch chain env store fromB toB k).2 = Except.error e) :
    ∀ attempt, 1 ≤ attempt → attempt ≤ cfg.maxRetries →
      (retryLoop cfg chain env fromB toB now store pm progDB attempt).trace =
        retrySchedule cfg.retryDelayMs fromB toB attempt
          (cfg.maxRetries + 1 - attempt) ∧
      ∃ e, (retryLoop cfg chain env fromB toB now store pm progDB
          attempt).res = .error e := by
  intro attempt
  induction attempt using retryLoop.induct cfg chain env fromB toB now store
      pm progDB with
  | case1 a hgt =>
      intro h1 h2
      omega
  | case2 a hgt tr store' cnt hb =>
      intro h1 h2
      rcases hfail a h1 h2 with ⟨e, he⟩
      rw [hb] at he
      cases he
  | case3 tr e hgt hb =>
      intro h1 h2
      have htr := scanBatch_error_trace hb
      rw [retryLoop_of_err_last (by omega) hb rfl]
      have hone : cfg.maxRetries + 1 - cfg.maxRetries = 1 := by omega
      rw [hone]
      exact ⟨by rw [htr]; rfl, e, rfl⟩
  | case4 a hgt tr e hb hne ih =>
      intro h1 h2
      have htr := scanBatch_error_trace hb
      rcases ih (by omega) (by omega) with ⟨hih, e2, hres⟩
      rw [retryLoop_of_err_next (by omega) hb hne]
      obtain ⟨n, hn⟩ : ∃ n, cfg.maxRetries + 1 - a = n + 2 :=
        ⟨cfg.maxRetries - a - 1, by omega⟩
      rw [hn]
      constructor
      · show tr ++ [Action.delayA (cfg.retryDelayMs * 2 ^ (a - 1))] ++
          (retryLoop cfg chain env fromB toB now store pm progDB
            (a + 1)).trace = _
        rw [htr, hih]
        have hn1 : cfg.maxRetries + 1 - (a + 1) = n + 1 := by omega
        rw [hn1]
        rfl
      · exact ⟨e2, hres⟩

/-! ## The failure-free scan: one fetch per batch range -/

lemma fetches_append (a b : List Action) :
    fetches (a ++ b) = fetches a ++ fetches b := by
  simp [fetches]

lemma scanBatch_noFail {chain : String} {env : ScanEnv}
    {store : List FeeEvent} {f t : Int} (hnf : NoFail env) :
    ∃ tr store' cnt,
      scanBatch chain env store f t 0 = (tr, .ok (store', cnt)) ∧
      fetches tr = [(f, t)] := by
  rcases hnf.1 f t with ⟨rs, hload⟩
  unfold scanBatch
  rw [hload]
  dsimp only
  by_cases hlen : rs.length = 0
  · rw [if_pos hlen]
    exact ⟨_, _, _, rfl, rfl⟩
  · rw [if_neg hlen]
    have hc : ¬ ((env.decode rs).length ≠ 0 ∧ env.storeFails f t 0 = true) := by
      simp [hnf.2 f t]
    rw [if_neg hc]
    refine ⟨_, _, _, rfl, ?_⟩
    by_cases hp : (env.decode rs).length = 0
    · simp [fetches, hp]
    · simp [fetches, hp]

lemma scanLoop_noFail {cfg : ScannerConfig} {hbs : 0 < cfg.batchSize}
    {chain : String} {env : ScanEnv} {current : Int} {now : Nat}
    (hnf : NoFail env) :
    ∀ (fromB : Int) (store : List FeeEvent) (pm progDB : ScanProgress),
      fetches (scanLoop cfg hbs chain env current now fromB store pm
          progDB).trace = batchRanges cfg.batchSize hbs fromB current ∧
      (scanLoop cfg hbs chain env current now fromB store pm progDB).res =
        .ok () := by
  intro fromB store pm progDB
  induction fromB, store, pm, progDB using scanLoop.induct cfg hbs chain env
      current now with
  | case1 fromB store pm progDB h toB tr store' cnt hb pm' ih =>
      rw [scanLoop_of_ok h hb]
      rcases @scanBatch_noFail chain env store fromB toB hnf with
        ⟨tr2, s2, c2, heq, hf⟩
      rw [hb] at heq
      have htr : tr = tr2 := (Prod.mk.injEq _ _ _ _ ▸ heq).1
      dsimp only
      rw [batchRanges_of_le hbs h]
      constructor
      · rw [fetches_append, fetches_append, fetches_append, htr, hf]
        have h1 : fetches [Action.saveA pm'] = [] := rfl
        have h2 : fetches (if toB + 1 ≤ current then [Action.delayA 500]
            else []) = [] := by
          by_cases hc : toB + 1 ≤ current
          · rw [if_pos hc]; rfl
          · rw [if_neg hc]; rfl
        rw [h1, h2, ih.1]
        simp
      · exact ih.2
  | case2 fromB store pm progDB h toB tr e hb r e2 hres =>
      exfalso
      rcases @scanBatch_noFail chain env store fromB toB hnf with
        ⟨tr2, s2, c2, heq, hf⟩
      rw [hb] at heq
      exact absurd (Prod.mk.injEq _ _ _ _ ▸ heq).2 (by simp)
  | case3 fromB store pm progDB h toB tr e hb r a hres ih =>
      exfalso
      rcases @scanBatch_noFail chain env store fromB toB hnf with
        ⟨tr2, s2, c2, heq, hf⟩
      rw [hb] at heq
      exact absurd (Prod.mk.injEq _ _ _ _ ▸ heq).2 (by simp)
  | case4 fromB store pm progDB h =>
      rw [scanLoop_of_gt (not_le.mp h), batchRanges_of_gt hbs (not_le.mp h)]
      exact ⟨rfl, rfl⟩

/-! ## Progress monotonicity -/

lemma updateProgress_last (p : ScanProgress) (b ec bl : Int) (now : Nat) :
    (p.updateProgress b ec bl now).lastScannedBlock =
      max p.lastScannedBlock b := rfl

lemma retryLoop_mono {cfg : ScannerConfig} {chain : String} {env : ScanEnv}
    {fromB toB : Int} {now : Nat} {store : List FeeEvent}
    {pm progDB : ScanProgress} :
    ∀ attempt, progDB.lastScannedBlock ≤ pm.lastScannedBlock →
      progDB.lastScannedBlock ≤
          (retryLoop cfg chain env fromB toB now store pm progDB
            attempt).progDB.lastScannedBlock ∧
        (retryLoop cfg chain env fromB toB now store pm progDB
            attempt).progDB.lastScannedBlock ≤
          (retryLoop cfg chain env fromB toB now store pm progDB
            attempt).progMem.lastScannedBlock ∧
        pm.lastScannedBlock ≤
          (retryLoop cfg chain env fromB toB now store pm progDB
            attempt).progMem.lastScannedBlock := by
  intro attempt
  induction attempt using retryLoop.induct cfg chain env fromB toB now store
      pm progDB with
  | case1 a hgt =>
      intro hle
      rw [retryLoop_of_gt hgt]
      dsimp only
      exact ⟨le_refl _, hle, le_refl _⟩
  | case2 a hgt tr store' cnt hb =>
      intro hle
      rw [retryLoop_of_ok (by omega) hb]
      dsimp only
      rw [updateProgress_last]
      omega
  | case3 tr e hgt hb =>
      intro hle
      rw [retryLoop_of_err_last (by omega) hb rfl]
      dsimp only
      exact ⟨le_refl _, hle, le_refl _⟩
  | case4 a hgt tr e hb hne ih =>
      intro hle
      rw [retryLoop_of_err_next (by omega) hb hne]
      dsimp only
      exact ih hle

lemma scanLoop_mono {cfg : ScannerConfig} {hbs : 0 < cfg.batchSize}
    {chain : String} {env : ScanEnv} {current : Int} {now : Nat} :
    ∀ (fromB : Int) (store : List FeeEvent) (pm progDB : ScanProgress),
      progDB.lastScannedBlock ≤ pm.lastScannedBlock →
      progDB.lastScannedBlock ≤
          (scanLoop cfg hbs chain env current now fromB store pm
            progDB).progDB.lastScannedBlock ∧
        (scanLoop cfg hbs chain env current now fromB store pm
            progDB).progDB.lastScannedBlock ≤
          (scanLoop cfg hbs chain env current now fromB store pm
            progDB).progMem.lastScannedBlock ∧
        pm.lastScannedBlock ≤
          (scanLoop cfg hbs chain env current now fromB store pm
            progDB).progMem.lastScannedBlock := by
  intro fromB store pm progDB
  induction fromB, store, pm, progDB using scanLoop.induct cfg hbs chain env
      current now with
  | case1 fromB store pm progDB h toB tr store' cnt hb pm' ih =>
      intro hle
      rw [scanLoop_of_ok h hb]
      dsimp only
      unfold pm' toB at ih
      have hpm' : pm.lastScannedBlock ≤
          (pm.updateProgress (min (fromB + (cfg.batchSize : Int) - 1) current)
            cnt ((min (fromB + (cfg.batchSize : Int) - 1) current) - fromB + 1)
            now).lastScannedBlock := by
        rw [updateProgress_last]
        omega
      have hrec := ih (le_refl _)
      exact ⟨by omega, hrec.2.1, by omega⟩
  | case2 fromB store pm progDB h toB tr e hb r e2 hres =>
      intro hle
      unfold r toB at hres
      rw [scanLoop_of_err_err h hb hres]
      dsimp only
      exact retryLoop_mono 1 hle
  | case3 fromB store pm progDB h toB tr e hb r a hres ih =>
      intro hle
      cases a
      unfold r toB at hres ih
      rw [scanLoop_of_err_ok h hb hres]
      dsimp only
      have hr := @retryLoop_mono cfg chain env fromB
        (min (fromB + (cfg.batchSize : Int) - 1) current) now store pm
        progDB 1 hle
      have hrec := ih hr.2.1
      exact ⟨by omega, hrec.2.1, by omega⟩
  | case4 fromB store pm progDB h =>
      intro hle
      rw [scanLoop_of_gt (not_le.mp h)]
      dsimp only
      exact ⟨le_refl _, hle, le_refl _⟩

lemma scanForNewEvents_mono {cfg : ScannerConfig} {hbs : 0 < cfg.batchSize}
    {chain : String} {env : ScanEnv} {st : ScannerState} {now : Nat}
    {p : ScanProgress} (hp : st.progressDB = some p) :
    ∃ q, (scanForNewEvents cfg hbs chain env st now).state.progressDB =
        some q ∧ p.lastScannedBlock ≤ q.lastScannedBlock := by
  unfold scanForNewEvents
  by_cases hscan : st.isScanning
  · rw [if_pos hscan]
    exact ⟨p, hp, le_refl _⟩
  · rw [if_neg hscan, hp]
    dsimp only
    cases hh : env.height with
    | error e =>
        dsimp only
        exact ⟨p, rfl, le_refl _⟩
    | ok current =>
        dsimp only
        by_cases hcur : current ≤ p.lastScannedBlock
        · rw [if_pos hcur]
          exact ⟨p, rfl, le_refl _⟩
        · rw [if_neg hcur]
          dsimp only
          exact ⟨_, rfl, (scanLoop_mono _ _ _ _ (le_refl _)).1⟩

/-! ## The crash-safety invariant: events are stored before progress moves -/

lemma hasKey_mono_of_subset {s s' : List FeeEvent} (hsub : ∀ e ∈ s, e ∈ s')
    {k : String × Nat} (hk : hasKey s k = true) : hasKey s' k = true := by
  rcases hasKey_iff.mp hk with ⟨e, he, hke⟩
  exact hasKey_iff.mpr ⟨e, hsub e he, hke⟩

/-- Loop invariant: starting a batch at `fromB` with the in-memory document
at `fromB - 1`, the persisted record no further, and every earlier batch's
events already stored, every snapshot the loop persists — and the final
persisted pair — only ever advances `lastScannedBlock` past a batch whose
events are all present (by natural key) in the event store at that moment. -/
lemma scanLoop_c1_inv {cfg : ScannerConfig} {hbs : 0 < cfg.batchSize}
    {chain : String} {env : ScanEnv} {current : Int} {now : Nat}
    {ev : Int → Int → List ParsedFeeCollectedEvent}
    (hdet : ContentOk env ev) (hmr : 0 < cfg.maxRetries) (f0 : Int) :
    ∀ (fromB : Int) (store : List FeeEvent) (pm progDB : ScanProgress),
      pm.lastScannedBlock = fromB - 1 →
      progDB.lastScannedBlock ≤ fromB - 1 →
      (∀ ft ∈ batchRanges cfg.batchSize hbs f0 current,
        ft.2 ≤ fromB - 1 ∨ ft ∈ batchRanges cfg.batchSize hbs fromB current) →
      (∀ ft ∈ batchRanges cfg.batchSize hbs f0 current, ft.2 ≤ fromB - 1 →
        ∀ pe ∈ ev ft.1 ft.2,
          hasKey store (natKey (toFeeEvent chain pe)) = true) →
      (∀ snap ∈ (scanLoop cfg hbs chain env current now fromB store pm
          progDB).snaps,
        ∀ ft ∈ batchRanges cfg.batchSize hbs f0 current,
          ft.2 ≤ snap.2.lastScannedBlock →
          ∀ pe ∈ ev ft.1 ft.2,
            hasKey snap.1 (natKey (toFeeEvent chain pe)) = true) ∧
      (∀ ft ∈ batchRanges cfg.batchSize hbs f0 current,
        ft.2 ≤ (scanLoop cfg hbs chain env current now fromB store pm
            progDB).progDB.lastScannedBlock →
        ∀ pe ∈ ev ft.1 ft.2,
          hasKey (scanLoop cfg hbs chain env current now fromB store pm
            progDB).store (natKey (toFeeEvent chain pe)) = true) := by
  intro fromB store pm progDB
  induction fromB, store, pm, progDB using scanLoop.induct cfg hbs chain env
      current now with
  | case1 fromB store pm progDB h toB tr store' cnt hb pm' ih =>
      intro hpm hdb hdich hdone
      unfold toB at hb
      unfold pm' toB at ih
      rw [scanLoop_of_ok h hb]
      dsimp only
      have hft : fromB ≤ min (fromB + (cfg.batchSize : Int) - 1) current := by
        omega
      have hpm'last :
          (pm.updateProgress (min (fromB + (cfg.batchSize : Int) - 1) current)
            cnt ((min (fromB + (cfg.batchSize : Int) - 1) current) - fromB + 1)
            now).lastScannedBlock =
            min (fromB + (cfg.batchSize : Int) - 1) current := by
        rw [updateProgress_last]
        omega
      have hstored := scanBatch_ok_stored hdet hb
      have hafter : ∀ ft ∈ batchRanges cfg.batchSize hbs f0 current,
          ft.2 ≤ min (fromB + (cfg.batchSize : Int) - 1) current →
          ∀ pe ∈ ev ft.1 ft.2,
            hasKey store' (natKey (toFeeEvent chain pe)) = true := by
        intro ft hft2 hle pe hpe
        rcases hdich ft hft2 with hold | hnew
        · exact hasKey_mono_of_subset hstored.1 (hdone ft hft2 hold pe hpe)
        · rw [batchRanges_of_le hbs h] at hnew
          rcases List.mem_cons.mp hnew with rfl | htail
          · exact hstored.2 pe hpe
          · have hbd := batchRanges_mem hbs
              (min (fromB + (cfg.batchSize : Int) - 1) current + 1) current ft
              htail
            omega
      have hrec := ih (by rw [hpm'last]; omega) (by rw [hpm'last]; omega)
        ?hdich ?hdone2
      case hdich =>
        intro ft hft2
        rcases hdich ft hft2 with hold | hnew
        · exact Or.inl (by omega)
        · rw [batchRanges_of_le hbs h] at hnew
          rcases List.mem_cons.mp hnew with rfl | htail
          · exact Or.inl (by simp)
          · exact Or.inr htail
      case hdone2 =>
        intro ft hft2 hle pe hpe
        exact hafter ft hft2 (by omega) pe hpe
      constructor
      · intro snap hsnap ft hft2 hle pe hpe
        rcases List.mem_cons.mp hsnap with rfl | hrest
        · exact hafter ft hft2 (by
            dsimp only at hle
            rw [hpm'last] at hle
            exact hle) pe hpe
        · exact hrec.1 snap hrest ft hft2 hle pe hpe
      · exact hrec.2
  | case2 fromB store pm progDB h toB tr e hb r e2 hres =>
      intro hpm hdb hdich hdone
      unfold toB at hb
      unfold r toB at hres
      rw [scanLoop_of_err_err h hb hres]
      dsimp only
      have hshape := retryLoop_error_shape 1 hres
      rw [hshape.1, hshape.2.2.1, hshape.2.2.2]
      constructor
      · intro snap hsnap
        cases hsnap
      · intro ft hft2 hle pe hpe
        exact hdone ft hft2 (by omega) pe hpe
  | case3 fromB store pm progDB h toB tr e hb r a hres ih =>
      intro hpm hdb hdich hdone
      cases a
      unfold toB at hb
      unfold r toB at hres ih
      rw [scanLoop_of_err_ok h hb hres]
      dsimp only
      have hft : fromB ≤ min (fromB + (cfg.batchSize : Int) - 1) current := by
        omega
      rcases retryLoop_ok_shape 1 hmr hres with
        ⟨k, tr2, store', cnt, hk1, hk2, hbk, hst, hpmem, hpdb, hsnaps⟩
      have hpm'last :
          (pm.updateProgress (min (fromB + (cfg.batchSize : Int) - 1) current)
            cnt ((min (fromB + (cfg.batchSize : Int) - 1) current) - fromB + 1)
            now).lastScannedBlock =
            min (fromB + (cfg.batchSize : Int) - 1) current := by
        rw [updateProgress_last]
        omega
      have hstored := scanBatch_ok_stored hdet hbk
      have hafter : ∀ ft ∈ batchRanges cfg.batchSize hbs f0 current,
          ft.2 ≤ min (fromB + (cfg.batchSize : Int) - 1) current →
          ∀ pe ∈ ev ft.1 ft.2,
            hasKey store' (natKey (toFeeEvent chain pe)) = true := by
        intro ft hft2 hle pe hpe
        rcases hdich ft hft2 with hold | hnew
        · exact hasKey_mono_of_subset hstored.1 (hdone ft hft2 hold pe hpe)
        · rw [batchRanges_of_le hbs h] at hnew
          rcases List.mem_cons.mp hnew with rfl | htail
          · exact hstored.2 pe hpe
          · have hbd := batchRanges_mem hbs
              (min (fromB + (cfg.batchSize : Int) - 1) current + 1) current ft
              htail
            omega
      rw [hst, hpmem, hpdb] at ih
      have hrec := ih (by rw [hpm'last]; omega) (by rw [hpm'last]; omega)
        ?hdich3 ?hdone3
      case hdich3 =>
        intro ft hft2
        rcases hdich ft hft2 with hold | hnew
        · exact Or.inl (by omega)
        · rw [batchRanges_of_le hbs h] at hnew
          rcases List.mem_cons.mp hnew with rfl | htail
          · exact Or.inl (by simp)
          · exact Or.inr htail
      case hdone3 =>
        intro ft hft2 hle pe hpe
        exact hafter ft hft2 (by omega) pe hpe
      rw [hst, hpmem, hpdb, hsnaps]
      constructor
      · intro snap hsnap ft hft2 hle pe hpe
        rcases List.mem_append.mp hsnap with hhead | hrest
        · rcases List.mem_singleton.mp hhead with rfl
          exact hafter ft hft2 (by
            dsimp only at hle
            rw [hpm'last] at hle
            exact hle) pe hpe
        · exact hrec.1 snap hrest ft hft2 hle pe hpe
      · exact hrec.2
  | case4 fromB store pm progDB h =>
      intro hpm hdb hdich hdone
      rw [scanLoop_of_gt (not_le.mp h)]
      dsimp only
      constructor
      · intro snap hsnap
        cases hsnap
      · intro ft hft2 hle pe hpe
        exact hdone ft hft2 (by omega) pe hpe


/-! ## Remaining auxiliary lemmas -/

lemma retrySchedule_fetches (base : Nat) (f t : Int) :
    ∀ n attempt, fetches (retrySchedule base f t attempt n) =
      List.replicate n (f, t) := by
  intro n
  induction n with
  | zero => intro attempt; rfl
  | succ m ih =>
      intro attempt
      cases m with
      | zero => rfl
      | succ m2 =>
          show fetches (.fetch f t :: .delayA (base * 2 ^ (attempt - 1)) ::
            retrySchedule base f t (attempt + 1) (m2 + 1)) = _
          have := ih (attempt + 1)
          simp only [fetches, List.filterMap_cons] at this ⊢
          rw [this]
          rfl

lemma insertIgnoringDups_length_le (store : List FeeEvent)
    (evs : List FeeEvent) :
    (insertIgnoringDups store evs).length ≤ store.length + evs.length := by
  induction evs generalizing store with
  | nil => simp [insertIgnoringDups]
  | cons e rest ih =>
      by_cases hx : hasKey store (natKey e) = true
      · simp only [insertIgnoringDups, hx, if_pos]
        have := ih store
        simp only [List.length_cons]
        omega
      · simp only [insertIgnoringDups, hx]
        rw [if_neg (by simp [hx])]
        have := ih (store ++ [e])
        simp only [List.length_append, List.length_singleton,
          List.length_cons, List.length_nil] at this ⊢
        omega

lemma scanMany_mono {cfg : ScannerConfig} {hbs : 0 < cfg.batchSize}
    {chain : String} :
    ∀ (runs : List (ScanEnv × Nat)) (st : ScannerState) (p : ScanProgress),
      st.progressDB = some p →
      ∃ q, (scanMany cfg hbs chain runs st).progressDB = some q ∧
        p.lastScannedBlock ≤ q.lastScannedBlock := by
  intro runs
  induction runs with
  | nil =>
      intro st p hp
      exact ⟨p, hp, le_refl _⟩
  | cons run rest ih =>
      intro st p hp
      rcases @scanForNewEvents_mono cfg hbs chain run.1 st run.2 p hp with
        ⟨q, hq, hle⟩
      rcases ih _ q hq with ⟨q2, hq2, hle2⟩
      refine ⟨q2, ?_, by omega⟩
      simpa [scanMany, List.foldl_cons] using hq2

/-! ## Claims -/

/-- C7: invoking the scan entry point while a prior invocation on the same
engine instance is still in flight (`isScanning` true) returns immediately
without error, issues no remote fetch calls (empty action trace), and
changes no stored state: the outcome is exactly the unchanged state with an
empty trace and a successful result — a silent no-op, never queued. -/
theorem c7_reentrancy_guard (cfg : ScannerConfig) (hbs : 0 < cfg.batchSize)
    (chain : String) (env : ScanEnv) (st : ScannerState) (now : Nat)
    (hscan : st.isScanning = true) :
    scanForNewEvents cfg hbs chain env st now = ⟨st, [], [], .ok ()⟩ := by
  unfold scanForNewEvents
  rw [if_pos hscan]

theorem c7_reentrancy_guard_witness :
    stBusy.isScanning = true ∧
      scanForNewEvents cfgW (by decide) "polygon" envEmpty stBusy 0 =
        ⟨stBusy, [], [], .ok ()⟩ :=
  ⟨rfl, c7_reentrancy_guard cfgW (by decide) "polygon" envEmpty stBusy 0 rfl⟩

/-- C10: every execution of `scanForNewEvents` that began with `isScanning`
false ends with `isScanning` false again, whatever the environment did
(normal return or propagated error): the source's `finally` clears the
guard on every exit path, so a failed cycle can never wedge the engine in
the Scanning state. -/
theorem c10_guard_released (cfg : ScannerConfig) (hbs : 0 < cfg.batchSize)
    (chain : String) (env : ScanEnv) (st : ScannerState) (now : Nat)
    (h : st.isScanning = false) :
    (scanForNewEvents cfg hbs chain env st now).state.isScanning = false := by
  unfold scanForNewEvents
  rw [if_neg (by simp [h])]
  cases hdb : st.progressDB with
  | none => rfl
  | some p =>
      dsimp only
      cases hh : env.height with
      | error e => rfl
      | ok current =>
          dsimp only
          by_cases hcur : current ≤ p.lastScannedBlock
          · rw [if_pos hcur]
          · rw [if_neg hcur]

theorem c10_guard_released_witness :
    stIdle.isScanning = false ∧
      (scanForNewEvents cfgW (by decide) "polygon" envDown stIdle
        0).state.isScanning = false :=
  ⟨rfl, c10_guard_released cfgW (by decide) "polygon" envDown stIdle 0 rfl⟩

/-- C8: when no progress record exists, initialization creates one with
`lastScannedBlock = startBlock - 1`; when one exists it is returned
untouched; and a second initialization after a first one changes nothing
(chain height is not even an input of the operation, so an advanced chain
cannot affect it). -/
theorem c8_initialize_seed_and_idempotence :
    (∀ (cc : ChainConfig) (now : Nat),
      initializeScanProgress cc none now =
        some { chain := cc.name.toLower,
               lastScannedBlock := cc.startBlock - 1, lastScanTime := now,
               totalEventsFound := 0, totalBlocksScanned := 0,
               createdAt := now, updatedAt := now }) ∧
    (∀ (cc : ChainConfig) (p : ScanProgress) (now : Nat),
      initializeScanProgress cc (some p) now = some p) ∧
    (∀ (cc cc2 : ChainConfig) (db : Option ScanProgress) (now now2 : Nat),
      initializeScanProgress cc2 (initializeScanProgress cc db now) now2 =
        initializeScanProgress cc db now) := by
  refine ⟨fun cc now => rfl, fun cc p now => rfl, fun cc cc2 db now now2 => ?_⟩
  cases db <;> rfl

/-- C9: progress is monotone.  `updateProgress` moves `lastScannedBlock` to
the max of the current and proposed values, hence never decreases it, and
across any sequence of scan cycles (arbitrary environments, arbitrary
failures) the persisted `lastScannedBlock` is non-decreasing. -/
theorem c9_progress_monotone :
    (∀ (p : ScanProgress) (b ec bl : Int) (now : Nat),
      (p.updateProgress b ec bl now).lastScannedBlock =
          max p.lastScannedBlock b ∧
        p.lastScannedBlock ≤ (p.updateProgress b ec bl now).lastScannedBlock) ∧
    (∀ (cfg : ScannerConfig) (hbs : 0 < cfg.batchSize) (chain : String)
        (runs : List (ScanEnv × Nat)) (st : ScannerState) (p : ScanProgress),
      st.progressDB = some p →
      ∃ q, (scanMany cfg hbs chain runs st).progressDB = some q ∧
        p.lastScannedBlock ≤ q.lastScannedBlock) := by
  constructor
  · intro p b ec bl now
    rw [updateProgress_last]
    exact ⟨rfl, le_max_left _ _⟩
  · intro cfg hbs chain runs st p hp
    exact scanMany_mono runs st p hp

theorem c9_progress_monotone_witness :
    ∃ q, (scanMany cfgW (by decide) "polygon"
        [(envDown, 5), (envEmpty, 6)] stIdle).progressDB = some q ∧
      p0.lastScannedBlock ≤ q.lastScannedBlock :=
  c9_progress_monotone.2 cfgW (by decide) "polygon"
    [(envDown, 5), (envEmpty, 6)] stIdle p0 rfl

/-- C6 counterexample: the claim "initialization surfaces a
ConfigurationError to its caller when contract validation does not
succeed" is false on the code: `start` logs the invalid contract and
returns normally (`return;` plus an enclosing catch that swallows), so at
a concrete environment whose `getCode` is unreachable, `start` completes
with a successful result. -/
theorem c6_counterexample :
    ¬ ∀ (cfg : ScannerConfig) (hbs : 0 < cfg.batchSize)
        (chainCfg : ChainConfig) (ienv : InitEnv) (env1 env2 : ScanEnv)
        (st : ScannerState) (now : Nat),
        validateContract ienv = false →
        (start cfg hbs chainCfg ienv env1 env2 st now).res ≠ .ok () := by
  intro hall
  exact hall cfgW (by decide) chainW ienvBad envEmpty envEmpty stIdle 0
    rfl rfl

/-- C6 amended: when contract validation does not succeed (the endpoint is
unreachable — `getCode` throws — or the address holds no code, `"0x"`),
`start` does not surface any error to its caller: it returns normally,
leaving the state untouched, scheduling no periodic scan, issuing no fetch
and creating no progress record. -/
theorem c6_amended :
    (∀ (cfg : ScannerConfig) (hbs : 0 < cfg.batchSize)
        (chainCfg : ChainConfig) (ienv : InitEnv) (env1 env2 : ScanEnv)
        (st : ScannerState) (now : Nat),
        validateContract ienv = false →
        start cfg hbs chainCfg ienv env1 env2 st now =
          ⟨st, false, [], .ok ()⟩) ∧
    (∀ msg, validateContract ⟨.error msg⟩ = false) ∧
    validateContract ⟨.ok ("0x")⟩ = false := by
  refine ⟨?_, fun msg => rfl, by decide⟩
  intro cfg hbs chainCfg ienv env1 env2 st now hv
  unfold start
  rw [if_pos hv]

theorem c6_amended_witness :
    validateContract ienvBad = false ∧
      start cfgW (by decide) chainW ienvBad envEmpty envEmpty stIdle 0 =
        ⟨stIdle, false, [], .ok ()⟩ :=
  ⟨rfl, c6_amended.1 cfgW (by decide) chainW ienvBad envEmpty envEmpty
    stIdle 0 rfl⟩

/-- C2 counterexample: the claim "the count returned by scanBatch equals
only the number of events actually inserted, excluding the suppressed
duplicates" is false on the code: `scanBatch` returns
`parsedEvents.length`.  At a store already holding the event and a range
decoding to that same event, `scanBatch` succeeds with count 1 while zero
records were inserted (the store is unchanged). -/
theorem c2_counterexample :
    ¬ ∀ (chain : String) (env : ScanEnv) (store : List FeeEvent)
        (f t : Int) (k : Nat) (tr : List Action) (store' : List FeeEvent)
        (cnt : Int),
        scanBatch chain env store f t k = (tr, .ok (store', cnt)) →
        cnt = (store'.length : Int) - (store.length : Int) := by
  intro hall
  have hbatch : scanBatch ("polygon") envDup [sampleStored] 70000001 70000001 0
      = ([.fetch 70000001 70000001, .storeA [sampleStored]],
         .ok ([sampleStored], 1)) := by decide
  have hc := hall ("polygon") envDup [sampleStored] 70000001 70000001 0 _ _ _
    hbatch
  norm_num at hc

/-- C2 amended: a successful `scanBatch` returns the count of decoded
events of the fetched range (zero when the raw fetch is empty), not the
count of newly inserted records: duplicates suppressed at insertion are
still counted, so the number of records the store actually gained is only
bounded above by the returned count.  `totalEventsFound` therefore
accumulates decoded counts. -/
theorem c2_amended (chain : String) (env : ScanEnv) (store : List FeeEvent)
    (f t : Int) (k : Nat) (tr : List Action) (store' : List FeeEvent)
    (cnt : Int)
    (hb : scanBatch chain env store f t k = (tr, .ok (store', cnt))) :
    (∃ rs, env.load f t k = .ok rs ∧
      cnt = (if rs.length = 0 then 0 else ((env.decode rs).length : Int))) ∧
    (store'.length : Int) - (store.length : Int) ≤ cnt := by
  rcases scanBatch_ok_cases hb with ⟨rs, hload, hcase⟩
  rcases hcase with ⟨hlen, _, hst, hcnt⟩ | ⟨hlen, hst, hcnt⟩
  · subst hst
    exact ⟨⟨rs, hload, by rw [if_pos hlen, hcnt]⟩, by omega⟩
  · refine ⟨⟨rs, hload, by rw [if_neg hlen, hcnt]⟩, ?_⟩
    subst hst hcnt
    unfold storeEvents
    by_cases hplen : (env.decode rs).length = 0
    · rw [if_pos hplen]
      omega
    · rw [if_neg hplen]
      have hle := insertIgnoringDups_length_le store
        ((env.decode rs).map (toFeeEvent chain))
      rw [List.length_map] at hle
      omega

theorem c2_amended_witness :
    (∃ rs, envDup.load 70000001 70000001 0 = .ok rs ∧
      (1 : Int) = (if rs.length = 0 then 0
        else ((envDup.decode rs).length : Int))) ∧
    (([sampleStored] : List FeeEvent).length : Int) -
        (([sampleStored] : List FeeEvent).length : Int) ≤ 1 :=
  c2_amended ("polygon") envDup [sampleStored] 70000001 70000001 0
    [.fetch 70000001 70000001, .storeA [sampleStored]] [sampleStored] 1
    (by decide)

/-- C4: the event store holds at most one record per natural key
`(transactionHash, logIndex)`: bulk insertion preserves key uniqueness, a
second insertion attempt with an existing key is a no-op (the record list
is returned unchanged, not an error), two insertion attempts with the same
key leave at most one matching record, and non-colliding records in the
same bulk insert are still inserted. -/
theorem c4_dedup_by_natural_key :
    (∀ (store evs : List FeeEvent), (store.map natKey).Nodup →
      ((insertIgnoringDups store evs).map natKey).Nodup) ∧
    (∀ (store : List FeeEvent) (e : FeeEvent),
      hasKey store (natKey e) = true → insertIgnoringDups store [e] = store) ∧
    (∀ (store : List FeeEvent) (e e2 : FeeEvent),
      (store.map natKey).Nodup → natKey e2 = natKey e →
      ((insertIgnoringDups (insertIgnoringDups store [e]) [e2]).filter
        (fun x => natKey x = natKey e)).length ≤ 1) ∧
    (∀ (store evs : List FeeEvent) (e : FeeEvent), e ∈ evs →
      (evs.map natKey).Nodup → hasKey store (natKey e) = false →
      e ∈ insertIgnoringDups store evs) := by
  refine ⟨fun store evs h => keyNodup_insertIgnoringDups evs h,
    fun store e h => insertIgnoringDups_dup_noop h,
    ?_, fun store evs e he hn hf => mem_insertIgnoringDups_of_fresh he hn hf⟩
  intro store e e2 hnd hk
  exact countKey_le_one_of_keyNodup
    (keyNodup_insertIgnoringDups [e2] (keyNodup_insertIgnoringDups [e] hnd))
    (natKey e)

theorem c4_dedup_by_natural_key_witness :
    insertIgnoringDups [sampleStored] [sampleStored] = [sampleStored] ∧
      ((insertIgnoringDups (insertIgnoringDups [] [sampleStored])
        [sampleStored]).filter
          (fun x => natKey x = natKey sampleStored)).length ≤ 1 :=
  ⟨c4_dedup_by_natural_key.2.1 [sampleStored] sampleStored (by decide),
    c4_dedup_by_natural_key.2.2.1 [] sampleStored sampleStored (by decide)
      rfl⟩

/-- C5: one scan cycle fetches exactly the partition of
`[lastScannedBlock + 1, height]` into consecutive ranges
`[from, min(from + batchSize - 1, height)]`, in strictly increasing order
(each range starts right after the previous one ends and the last one ends
at the height); when the progress is already at or past the height the
cycle fetches nothing and leaves the progress record unchanged; and
range `[1, 5]` with batch size 2 partitions as `[1,2], [3,4], [5,5]`. -/
theorem c5_batch_partition (cfg : ScannerConfig) (hbs : 0 < cfg.batchSize)
    (chain : String) (env : ScanEnv) (st : ScannerState) (now : Nat)
    (p : ScanProgress) (current : Int) (hscan : st.isScanning = false)
    (hp : st.progressDB = some p) (hh : env.height = .ok current)
    (hnf : NoFail env) :
    (p.lastScannedBlock < current →
      fetches (scanForNewEvents cfg hbs chain env st now).trace =
          batchRanges cfg.batchSize hbs (p.lastScannedBlock + 1) current ∧
        consecutiveFrom (p.lastScannedBlock + 1)
          (batchRanges cfg.batchSize hbs (p.lastScannedBlock + 1) current) ∧
        lastEnd p.lastScannedBlock
            (batchRanges cfg.batchSize hbs (p.lastScannedBlock + 1) current)
          = current ∧
        (∀ ft ∈ batchRanges cfg.batchSize hbs (p.lastScannedBlock + 1)
            current,
          ft.2 = min (ft.1 + (cfg.batchSize : Int) - 1) current)) ∧
    (current ≤ p.lastScannedBlock →
      (scanForNewEvents cfg hbs chain env st now).trace = [] ∧
        (scanForNewEvents cfg hbs chain env st now).state.progressDB =
          some p) ∧
    batchRanges 2 (by decide) 1 5 = [(1, 2), (3, 4), (5, 5)] := by
  unfold scanForNewEvents
  rw [if_neg (by simp [hscan]), hp]
  dsimp only
  rw [hh]
  dsimp only
  refine ⟨?_, ?_, ?_⟩
  · intro hlt
    rw [if_neg (by omega)]
    dsimp only
    refine ⟨(scanLoop_noFail hnf _ _ _ _).1,
      batchRanges_consecutive hbs _ _,
      batchRanges_lastEnd hbs _ _ _ (by omega), ?_⟩
    intro ft hft
    exact (batchRanges_mem hbs _ _ ft hft).2.2.2
  · intro hge
    rw [if_pos hge]
    exact ⟨rfl, rfl⟩
  · simp [batchRanges]

theorem c5_batch_partition_witness :
    batchRanges 2 (by decide) 1 5 = [(1, 2), (3, 4), (5, 5)] :=
  (c5_batch_partition cfgW (by decide) "polygon" envEmpty stIdle 0 p0
    70000001 rfl rfl rfl
    ⟨fun f t => ⟨[], rfl⟩, fun f t => rfl⟩).2.2

/-- C3: a failed batch is retried on the same interval up to `maxRetries`
times, with delay `retryDelayMs * 2^(attempt-1)` between retry attempt
`attempt` and attempt `attempt + 1` and no delay after the last (the
schedule `retrySchedule`, whose fetches are `maxRetries` copies of the
same range); and when the first unscanned range fails all of its attempts,
the error propagates out of `scanForNewEvents` with the persisted
`lastScannedBlock` still at `from - 1` (the progress record and event
store are unchanged), the whole trace being the initial fetch followed by
the retry schedule. -/
theorem c3_retry_backoff_propagation (cfg : ScannerConfig)
    (hbs : 0 < cfg.batchSize) (hmr : 0 < cfg.maxRetries) (chain : String)
    (env : ScanEnv) (st : ScannerState) (now : Nat) (p : ScanProgress)
    (current : Int) (hscan : st.isScanning = false)
    (hp : st.progressDB = some p) (hh : env.height = .ok current)
    (hwork : p.lastScannedBlock < current)
    (hfail : ∀ k, k ≤ cfg.maxRetries →
      ∃ e, (scanBatch chain env st.eventsDB (p.lastScannedBlock + 1)
        (min (p.lastScannedBlock + 1 + (cfg.batchSize : Int) - 1) current)
          k).2 = Except.error e) :
    (∀ (fromB toB : Int) (store : List FeeEvent) (pm progDB : ScanProgress)
        (n : Nat),
      (∀ k, 1 ≤ k → k ≤ cfg.maxRetries →
        ∃ e, (scanBatch chain env store fromB toB k).2 = Except.error e) →
      (retryLoop cfg chain env fromB toB n store pm progDB 1).trace =
          retrySchedule cfg.retryDelayMs fromB toB 1 cfg.maxRetries ∧
        fetches (retrySchedule cfg.retryDelayMs fromB toB 1 cfg.maxRetries) =
          List.replicate cfg.maxRetries (fromB, toB) ∧
        (∃ e, (retryLoop cfg chain env fromB toB n store pm progDB 1).res =
          Except.error e)) ∧
    ((∃ e, (scanForNewEvents cfg hbs chain env st now).res =
        Except.error e) ∧
      (scanForNewEvents cfg hbs chain env st now).state.progressDB = some p ∧
      (scanForNewEvents cfg hbs chain env st now).state.eventsDB =
        st.eventsDB ∧
      (scanForNewEvents cfg hbs chain env st now).trace =
        Action.fetch (p.lastScannedBlock + 1)
            (min (p.lastScannedBlock + 1 + (cfg.batchSize : Int) - 1)
              current) ::
          retrySchedule cfg.retryDelayMs (p.lastScannedBlock + 1)
            (min (p.lastScannedBlock + 1 + (cfg.batchSize : Int) - 1)
              current) 1 cfg.maxRetries) := by
  have hsub : cfg.maxRetries + 1 - 1 = cfg.maxRetries := by omega
  constructor
  · intro fromB toB store pm progDB n hfail2
    have hall := @retryLoop_allFail cfg chain env fromB toB n store pm
      progDB hfail2 1 (le_refl 1) hmr
    rw [hsub] at hall
    exact ⟨hall.1, retrySchedule_fetches _ _ _ _ _, hall.2⟩
  · obtain ⟨e0, he0⟩ := hfail 0 (Nat.zero_le _)
    have hpair : scanBatch chain env st.eventsDB (p.lastScannedBlock + 1)
        (min (p.lastScannedBlock + 1 + (cfg.batchSize : Int) - 1) current) 0 =
        ((scanBatch chain env st.eventsDB (p.lastScannedBlock + 1)
          (min (p.lastScannedBlock + 1 + (cfg.batchSize : Int) - 1) current)
          0).1, .error e0) := by
      rw [← he0]
    rw [scanBatch_error_trace hpair] at hpair
    have hfail2 : ∀ k, 1 ≤ k → k ≤ cfg.maxRetries →
        ∃ e, (scanBatch chain env st.eventsDB (p.lastScannedBlock + 1)
          (min (p.lastScannedBlock + 1 + (cfg.batchSize : Int) - 1) current)
          k).2 = Except.error e := fun k _ h2 => hfail k h2
    have hall := @retryLoop_allFail cfg chain env (p.lastScannedBlock + 1)
      (min (p.lastScannedBlock + 1 + (cfg.batchSize : Int) - 1) current) now
      st.eventsDB p p hfail2 1 (le_refl 1) hmr
    rw [hsub] at hall
    obtain ⟨htrace, e, hres⟩ := hall
    have hshape := retryLoop_error_shape 1 hres
    unfold scanForNewEvents
    rw [if_neg (by simp [hscan]), hp]
    dsimp only
    rw [hh]
    dsimp only
    rw [if_neg (by omega)]
    dsimp only
    rw [scanLoop_of_err_err (by omega) hpair hres]
    dsimp only
    rw [htrace, hshape.1, hshape.2.2.1]
    exact ⟨⟨e, rfl⟩, rfl, rfl, rfl⟩

theorem c3_retry_backoff_propagation_witness :
    (∃ e, (scanForNewEvents cfgW (by decide) "polygon" envDown stIdle
      0).res = Except.error e) ∧
      (scanForNewEvents cfgW (by decide) "polygon" envDown stIdle
        0).state.progressDB = some p0 :=
  have h := (c3_retry_backoff_propagation cfgW (by decide) (by decide)
    "polygon" envDown stIdle 0 p0 70000001 rfl rfl rfl (by decide)
    (fun k _ => ⟨.loadFail ("ECONNREFUSED"), rfl⟩)).2
  ⟨h.1, h.2.1⟩

/-- C1: progress is persisted only after the batch's events are stored.
For any environment whose successful fetches of a range always decode to
that range's fixed content, every progress snapshot persisted during a
scan cycle — and the final persisted state — satisfies: every event of
every batch range lying at or below the persisted `lastScannedBlock` is
present (by natural key) in the event store at that same moment.  So no
reachable persisted state has progress advanced past a block whose events
were not stored.  (`0 < maxRetries` and `0 < batchSize` hold for the
repository's configuration, maxRetries = 3 and batchSize = 10000.) -/
theorem c1_store_before_save (cfg : ScannerConfig) (hbs : 0 < cfg.batchSize)
    (hmr : 0 < cfg.maxRetries) (chain : String) (env : ScanEnv)
    (ev : Int → Int → List ParsedFeeCollectedEvent) (hdet : ContentOk env ev)
    (st : ScannerState) (now : Nat) (p : ScanProgress) (current : Int)
    (hp : st.progressDB = some p) (hh : env.height = .ok current) :
    (∀ snap ∈ (scanForNewEvents cfg hbs chain env st now).snaps,
      ∀ ft ∈ batchRanges cfg.batchSize hbs (p.lastScannedBlock + 1) current,
        ft.2 ≤ snap.2.lastScannedBlock →
        ∀ pe ∈ ev ft.1 ft.2,
          hasKey snap.1 (natKey (toFeeEvent chain pe)) = true) ∧
    (∀ q, (scanForNewEvents cfg hbs chain env st now).state.progressDB =
        some q →
      ∀ ft ∈ batchRanges cfg.batchSize hbs (p.lastScannedBlock + 1) current,
        ft.2 ≤ q.lastScannedBlock →
        ∀ pe ∈ ev ft.1 ft.2,
          hasKey (scanForNewEvents cfg hbs chain env st now).state.eventsDB
            (natKey (toFeeEvent chain pe)) = true) := by
  have hbound : ∀ ft ∈ batchRanges cfg.batchSize hbs
      (p.lastScannedBlock + 1) current, p.lastScannedBlock < ft.2 := by
    intro ft hft
    have := batchRanges_mem hbs _ _ ft hft
    omega
  unfold scanForNewEvents
  by_cases hscan : st.isScanning
  · rw [if_pos hscan]
    constructor
    · intro snap hsnap
      cases hsnap
    · intro q hq ft hft hle
      rw [hp] at hq
      cases hq
      exact absurd hle (by have := hbound ft hft; omega)
  · rw [if_neg hscan, hp]
    dsimp only
    cases hh2 : env.height with
    | error e =>
        rw [hh2] at hh
        cases hh
    | ok current2 =>
        rw [hh2] at hh
        cases hh
        dsimp only
        by_cases hcur : current ≤ p.lastScannedBlock
        · rw [if_pos hcur]
          constructor
          · intro snap hsnap
            cases hsnap
          · intro q hq ft hft hle
            cases hq
            exact absurd hle (by have := hbound ft hft; omega)
        · rw [if_neg hcur]
          dsimp only
          have hinv := @scanLoop_c1_inv cfg hbs chain env current now ev
            hdet hmr
            (p.lastScannedBlock + 1) (p.lastScannedBlock + 1) st.eventsDB p p
            (by omega) (by omega)
            (fun ft hft => Or.inr hft)
            (fun ft hft hle => absurd hle
              (by have := hbound ft hft; omega))
          constructor
          · exact hinv.1
          · intro q hq ft hft hle pe hpe
            cases hq
            exact hinv.2 ft hft hle pe hpe

theorem c1_store_before_save_witness :
    hasKey (scanForNewEvents cfgW (by decide) ("polygon") envDup stIdle
        0).state.eventsDB
      (natKey (toFeeEvent ("polygon") sampleParsed)) = true :=
  (c1_store_before_save cfgW (by decide) (by decide) ("polygon") envDup
    (fun _ _ => [sampleParsed]) (by
      intro f t k rs h
      simp only [envDup] at h
      cases h
      simp [envDup])
    stIdle 0 p0 70000001 rfl rfl).2
    { chain := "polygon", lastScannedBlock := 70000001, lastScanTime := 0,
      totalEventsFound := 1, totalBlocksScanned := 2, createdAt := 0,
      updatedAt := 0 }
    (by simp [scanForNewEvents, stIdle, p0, envDup, cfgW, scanLoop, scanBatch,
      storeEvents, insertIgnoringDups, hasKey, natKey, toFeeEvent,
      sampleParsed, sampleStored, ScanProgress.updateProgress])
    (70000000, 70000001)
    (by simp [batchRanges, cfgW, p0])
    (by decide)
    sampleParsed (by simp)

end FeeWhisperer
